import Mathlib

/-!
Verification of the caryatid catalog/backend storage engine against its
natural-language specification.

The repository stores a versioned catalog of Vagrant box artifacts as a JSON
document, with three operations: add, query, delete.  The CLI entry point
(`src/cmd/caryatid/caryatid.go`) is embedded directly from the source; the
core package `pkg/caryatid` (data model, version comparator, query engine,
backend manager) is not part of the given sources, so those definitions are
modelled from the specification, as marked in their doc comments.
-/

set_option autoImplicit false

namespace Caryatid

/-! ## Data model (spec section 3) -/

/-- Modelled from the spec: the `Provider` record of the missing
`pkg/caryatid` package — one physical variant of a box version, with fields
name, url, checksumType, checksum. -/
structure Provider where
  name : String
  url : String
  checksumType : String
  checksum : String
deriving DecidableEq

/-- Modelled from the spec: the `Version` record of the missing
`pkg/caryatid` package — one release of a box: a semantic-version string and
an ordered list of providers (insertion order = registration order). -/
structure Version where
  version : String
  providers : List Provider
deriving DecidableEq

/-- Modelled from the spec: the `Catalog` record of the missing
`pkg/caryatid` package — the root document for one box name, with an ordered
list of versions (registration order, not sorted). -/
structure Catalog where
  name : String
  description : String
  versions : List Version
deriving DecidableEq

/-- The `BoxArtifact` structure as constructed by `addAction` in
`src/cmd/caryatid/caryatid.go`: local path, box name, description, version,
provider name, catalog URI, checksum type, checksum. -/
structure BoxArtifact where
  path : String
  name : String
  description : String
  version : String
  provider : String
  catalogRootUri : String
  checksumType : String
  checksum : String
deriving DecidableEq

/-! ## Version comparator (spec section 4.1)

A version string is split into a numeric core (dot-separated non-negative
integers) and an optional pre-release suffix (the text after the first `-`).
Cores compare component-wise, most-significant first; on equal cores a
suffixed version orders strictly before the unsuffixed one, and two suffixes
compare lexically. -/

/-- Modelled from the spec: the parsed form of a semantic-version string used
by the missing `pkg/caryatid` version comparator. -/
structure SemVer where
  core : List Nat
  suffix : Option String
deriving DecidableEq

/-- Three-way comparison of naturals, spelled out so every proof controls its
reduction behaviour. -/
def natCompare (a b : Nat) : Ordering :=
  if a < b then .lt else if b < a then .gt else .eq

/-- Lexical three-way comparison of char lists (used for pre-release
suffixes, which the spec says compare lexically). -/
def charsCompare : List Char → List Char → Ordering
  | [], [] => .eq
  | [], _ :: _ => .lt
  | _ :: _, [] => .gt
  | a :: as, b :: bs =>
    match natCompare a.toNat b.toNat with
    | .eq => charsCompare as bs
    | o => o

/-- Does `hay` start with `needle`?  (Structural, so that concrete instances
reduce in the kernel.) -/
def beginsWith : List Char → List Char → Bool
  | [], _ => true
  | _ :: _, [] => false
  | n :: ns, h :: hs => n == h && beginsWith ns hs

/-- Split a char list at every occurrence of `sep` (the separators are
dropped), mirroring Go's `strings.Split`. -/
def splitOnChar (sep : Char) : List Char → List (List Char)
  | [] => [[]]
  | c :: rest =>
    if c = sep then [] :: splitOnChar sep rest
    else
      match splitOnChar sep rest with
      | [] => [[c]]
      | g :: gs => (c :: g) :: gs

/-- Parse one dot-separated numeric core component: nonempty, digits only. -/
def parseCoreComponent (cs : List Char) : Option Nat :=
  if cs ≠ [] ∧ cs.all Char.isDigit then
    some (cs.foldl (fun a c => a * 10 + (c.toNat - 48)) 0)
  else none

/-- Modelled from the spec: `parseVersion` of the missing `pkg/caryatid`
version comparator, on the character level.  Splits at the first `-` into a
numeric core and an optional pre-release suffix; each core component must be
a non-negative integer, otherwise the parse is a reportable error
(`none`). -/
def parseVersionChars (cs : List Char) : Option SemVer :=
  let core := cs.takeWhile (fun c => c ≠ '-')
  let rest := cs.dropWhile (fun c => c ≠ '-')
  let suffix : Option String :=
    match rest with
    | [] => none
    | _ :: tail => some ⟨tail⟩
  ((splitOnChar '.' core).mapM parseCoreComponent).map (fun l => ⟨l, suffix⟩)

/-- Modelled from the spec: `parseVersion` of the missing `pkg/caryatid`
version comparator. -/
def parseVersion (s : String) : Option SemVer :=
  parseVersionChars s.data

/-- Modelled from the spec: component-wise comparison of numeric cores,
most-significant first; a core that is a strict prefix of a longer one
orders before it. -/
def coreCompare : List Nat → List Nat → Ordering
  | [], [] => .eq
  | [], _ :: _ => .lt
  | _ :: _, [] => .gt
  | a :: as, b :: bs =>
    match natCompare a b with
    | .eq => coreCompare as bs
    | o => o

/-- Modelled from the spec: pre-release suffix comparison — a version with a
suffix orders strictly before the same core without one; two suffixes
compare lexically. -/
def suffixCompare : Option String → Option String → Ordering
  | none, none => .eq
  | some _, none => .lt
  | none, some _ => .gt
  | some a, some b => charsCompare a.data b.data

/-- Modelled from the spec: the full ordering on parsed versions. -/
def semVerCompare (a b : SemVer) : Ordering :=
  match coreCompare a.core b.core with
  | .eq => suffixCompare a.suffix b.suffix
  | o => o

/-- Strict version-string ordering: parse both sides and compare.  `none`
when either side is malformed. -/
def versionLt (a b : String) : Option Bool := do
  let va ← parseVersion a
  let vb ← parseVersion b
  pure (semVerCompare va vb == .lt)

/-- The comparison operators accepted at the head of a version query. -/
inductive VOp
  | ltOp
  | leOp
  | gtOp
  | geOp
  | eqOp
deriving DecidableEq

/-- Modelled from the spec: parsing of a comparator query string — operators
`<=`, `>=`, `<`, `>`, `=`, or no operator meaning exact match, followed by a
version string. -/
def parseVersionQuery (q : String) : Option (VOp × SemVer) :=
  let cs := q.data
  let opRest : VOp × List Char :=
    if beginsWith ['<', '='] cs then (VOp.leOp, cs.drop 2)
    else if beginsWith ['>', '='] cs then (VOp.geOp, cs.drop 2)
    else if beginsWith ['<'] cs then (VOp.ltOp, cs.drop 1)
    else if beginsWith ['>'] cs then (VOp.gtOp, cs.drop 1)
    else if beginsWith ['='] cs then (VOp.eqOp, cs.drop 1)
    else (VOp.eqOp, cs)
  (parseVersionChars opRest.2).map (fun v => (opRest.1, v))

/-- Whether an `Ordering` of candidate against query version satisfies the
query operator. -/
def opSatisfied (op : VOp) (o : Ordering) : Bool :=
  match op with
  | .ltOp => o == .lt
  | .leOp => o != .gt
  | .gtOp => o == .gt
  | .geOp => o != .lt
  | .eqOp => o == .eq

/-- Modelled from the spec: whether candidate version string `v` satisfies
comparator query `q`; the empty query matches everything; a malformed query
or version is a reportable error (`none`). -/
def versionSatisfies (q v : String) : Option Bool :=
  if q = "" then some true
  else do
    let (op, qv) ← parseVersionQuery q
    let sv ← parseVersion v
    pure (opSatisfied op (semVerCompare sv qv))

/-! ## Provider-pattern matching (spec section 4.5)

The spec describes provider matching as "an unanchored substring/regular-
expression search against the provider name".  The regular-expression
dialect is modelled with the constructs the repository's tests exercise:
literal characters, `.` (any character) and postfix `*` (zero or more of the
preceding atom). -/

/-- One regular-expression atom: a literal character or `.`. -/
inductive RAtom
  | ch (c : Char)
  | dot
deriving DecidableEq

/-- One regular-expression piece: an atom, or an atom under a `*`. -/
inductive RPiece
  | once (a : RAtom)
  | star (a : RAtom)
deriving DecidableEq

/-- Modelled from the spec: parsing of a provider pattern of the missing
`pkg/caryatid` query engine.  A `*` with no preceding atom is an invalid
pattern, which the spec calls a reportable error (`none`). -/
def parseRegex : List Char → Option (List RPiece)
  | [] => some []
  | c :: rest =>
    if c = '*' then none
    else
      let a := if c = '.' then RAtom.dot else RAtom.ch c
      match rest with
      | [] => some [RPiece.once a]
      | c2 :: rest2 =>
        if c2 = '*' then (parseRegex rest2).map (fun ps => RPiece.star a :: ps)
        else (parseRegex (c2 :: rest2)).map (fun ps => RPiece.once a :: ps)

/-- Does an atom match one character? -/
def atomMatch : RAtom → Char → Bool
  | .dot, _ => true
  | .ch c, c2 => c == c2

/-- All suffixes of the text reachable by dropping zero or more characters
that match atom `a` — the candidate continuations after a `*` piece.  The
head of the result is always the text itself (drop zero). -/
def starDrops (a : RAtom) : List Char → List (List Char)
  | [] => [[]]
  | c :: cs => (c :: cs) :: (if atomMatch a c then starDrops a cs else [])

/-- Does the piece list match some prefix of the text (with full
backtracking)?  A `*` piece consumes any number of matching characters. -/
def matchHere : List RPiece → List Char → Bool
  | [], _ => true
  | .once _ :: _, [] => false
  | .once a :: ps, c :: cs => atomMatch a c && matchHere ps cs
  | .star a :: ps, cs => (starDrops a cs).any (fun cs2 => matchHere ps cs2)

/-- Unanchored search: does the piece list match starting at some position of
the text? -/
def searchFrom (ps : List RPiece) : List Char → Bool
  | [] => matchHere ps []
  | c :: cs => matchHere ps (c :: cs) || searchFrom ps cs

/-- Modelled from the spec: the provider-pattern match of the missing
`pkg/caryatid` query engine — an unanchored regular-expression search
against the provider name; an invalid pattern is a reportable error. -/
def providerSearch (pat name : String) : Option Bool :=
  (parseRegex pat.data).map (fun ps => searchFrom ps name.data)

/-- Substring containment of char lists (`containsSub needle hay`). -/
def containsSub (needle : List Char) : List Char → Bool
  | [] => needle.isEmpty
  | c :: cs => beginsWith needle (c :: cs) || containsSub needle cs

/-! ## Query engine (spec section 4.5) -/

/-- Keep only the providers whose name the parsed pattern matches. -/
def filterProviders (ps : List RPiece) (provs : List Provider) : List Provider :=
  provs.filter (fun p => searchFrom ps p.name.data)

/-- Modelled from the spec: the version-by-version loop of the missing
`pkg/caryatid` query engine.  A version is kept when it satisfies the
version query; within it only pattern-matching providers survive; a version
with no surviving providers is dropped; input order is kept.  A malformed
version or query is a reportable error (`none`). -/
def queryVersions (vq : String) (ps : List RPiece) : List Version → Option (List Version)
  | [] => some []
  | v :: rest =>
    match versionSatisfies vq v.version, queryVersions vq ps rest with
    | some keep, some tail =>
      if keep then
        let provs := filterProviders ps v.providers
        if provs.isEmpty then some tail else some ({ v with providers := provs } :: tail)
      else some tail
    | _, _ => none

/-- Modelled from the spec: `QueryCatalog` of the missing `pkg/caryatid`
query engine — a new Catalog of the same name/description containing only
the matching versions and providers. -/
def queryCatalog (cat : Catalog) (vq pq : String) : Option Catalog :=
  (parseRegex pq.data).bind (fun ps =>
    (queryVersions vq ps cat.versions).map (fun vs => { cat with versions := vs }))

/-! ## Catalog mutation for add (spec sections 3 and 4.4) -/

/-- Modelled from the spec: registering a provider inside a version of the
missing `pkg/caryatid` package — a provider name that already exists is
replaced in place, otherwise the provider is appended. -/
def addProviderEntry (p : Provider) : List Provider → List Provider
  | [] => [p]
  | q :: rest => if q.name = p.name then p :: rest else q :: addProviderEntry p rest

/-- Modelled from the spec: registering a (version, provider) pair in the
version list of the missing `pkg/caryatid` package — the provider is
inserted into the version whose string matches (created at the end if new),
keeping registration order. -/
def addVersionEntry (vstr : String) (p : Provider) : List Version → List Version
  | [] => [⟨vstr, [p]⟩]
  | v :: rest =>
    if v.version = vstr then { v with providers := addProviderEntry p v.providers } :: rest
    else v :: addVersionEntry vstr p rest

/-- Insert a (version, provider) pair into a catalog. -/
def catalogAddEntry (cat : Catalog) (vstr : String) (p : Provider) : Catalog :=
  { cat with versions := addVersionEntry vstr p cat.versions }

/-- First version with the given version string. -/
def lookupVersion (cat : Catalog) (vstr : String) : Option Version :=
  cat.versions.find? (fun v => v.version == vstr)

/-- First provider with the given name inside a version found by string. -/
def lookupEntry (cat : Catalog) (vstr pname : String) : Option Provider :=
  (lookupVersion cat vstr).bind (fun v => v.providers.find? (fun p => p.name == pname))

/-! ## Backend and manager state (spec sections 4.3 and 4.4)

The backend is modelled by its observable state: the catalog document (or
its absence) and the set of artifact files it stores.  The local-filesystem
backend derives the artifact location deterministically from box name,
version and provider name. -/

/-- Modelled from the spec: the observable state of a storage backend of the
missing `pkg/caryatid` package — the catalog document at the URI (absent or
present) and the artifact files in backend storage. -/
structure BackendState where
  catalogDoc : Option Catalog
  files : List String
deriving DecidableEq

/-- The deterministic artifact file name used by the backend, visible in the
repository's delete test as `boxName_version_provider.box`. -/
def boxFileName (name vstr pname : String) : String :=
  name ++ "_" ++ vstr ++ "_" ++ pname ++ ".box"

/-- The backend-relative path of an artifact file, `boxName/<file name>`. -/
def boxFilePath (name vstr pname : String) : String :=
  name ++ "/" ++ boxFileName name vstr pname

/-- The backend result of reading the catalog document. -/
inductive ReadResult
  | found (c : Catalog)
  | notFound
deriving DecidableEq

/-- Modelled from the spec: `readCatalog` of the missing backend — the
document when present, a NotFound condition otherwise. -/
def backendReadCatalog (st : BackendState) : ReadResult :=
  match st.catalogDoc with
  | some c => .found c
  | none => .notFound

/-- Modelled from the spec: the read step shared by every manager operation —
a NotFound condition is normalized to an empty catalog with the configured
box name and empty description, never surfaced as a failure. -/
def readNormalized (st : BackendState) (boxName : String) : Catalog :=
  match backendReadCatalog st with
  | .found c => c
  | .notFound => ⟨boxName, "", []⟩

/-- Modelled from the spec: `GetCatalog` of the missing `pkg/caryatid`
manager — absence of the catalog document is not an error at the manager
boundary. -/
def managerGetCatalog (st : BackendState) (boxName : String) : Except String Catalog :=
  match backendReadCatalog st with
  | .found c => .ok c
  | .notFound => .ok ⟨boxName, "", []⟩

/-! ## The add operation (spec section 4.4, `addAction` in
`src/cmd/caryatid/caryatid.go`) -/

/-- The URL recorded in the catalog for an artifact, derived from catalog
root, box name, version and provider. -/
def artifactUrl (art : BoxArtifact) : String :=
  art.catalogRootUri ++ "/" ++ boxFilePath art.name art.version art.provider

/-- The Provider entry that an add operation projects a BoxArtifact into. -/
def artifactProvider (art : BoxArtifact) : Provider :=
  ⟨art.provider, artifactUrl art, art.checksumType, art.checksum⟩

/-- Modelled from the spec: the catalog produced by
`AddBoxMetadataToCatalog` of the missing `pkg/caryatid` manager — read the
current catalog (or start an empty one keyed by the artifact's
name/description on first use) and insert/replace the provider entry under
the matching version. -/
def addedCatalog (st : BackendState) (art : BoxArtifact) : Catalog :=
  let cat0 : Catalog :=
    match st.catalogDoc with
    | some c => c
    | none => ⟨art.name, art.description, []⟩
  catalogAddEntry cat0 art.version (artifactProvider art)

/-- A backend mutation issued by an operation, in issue order. -/
inductive BackendOp
  | writeCatalogOp (c : Catalog)
  | copyFileOp (path : String)
deriving DecidableEq

/-- The outcome of one add operation: final backend state, the backend
mutations in the order they were issued, and whether the operation
succeeded. -/
structure AddOutcome where
  finalState : BackendState
  trace : List BackendOp
  success : Bool
deriving DecidableEq

/-- The add operation as sequenced by `addAction` in
`src/cmd/caryatid/caryatid.go`: first `manager.AddBoxMetadataToCatalog`
(which writes the catalog document to the backend), then
`manager.Backend.CopyBoxFile`.  `copyFails` injects an I/O failure into the
file copy; on failure `addAction` returns the error with no rollback, so the
catalog write is left in place and the file set is unchanged. -/
def addActionModel (st : BackendState) (art : BoxArtifact) (copyFails : Bool) : AddOutcome :=
  let cat1 := addedCatalog st art
  let st1 : BackendState := { st with catalogDoc := some cat1 }
  let p := boxFilePath art.name art.version art.provider
  if copyFails then
    ⟨st1, [.writeCatalogOp cat1, .copyFileOp p], false⟩
  else
    ⟨{ st1 with files := if st1.files.contains p then st1.files else st1.files ++ [p] },
      [.writeCatalogOp cat1, .copyFileOp p], true⟩

/-- Modelled from the spec: `AddBox` of the missing `pkg/caryatid` manager,
with the argument order of the repository's tests
(`path, name, description, version, provider, checksumType, checksum`);
returns the backend state after a successful add. -/
def managerAddBox (st : BackendState) (path name desc vstr pname ctype csum : String) :
    BackendState :=
  (addActionModel st ⟨path, name, desc, vstr, pname, "", ctype, csum⟩ false).finalState

/-- Modelled from the spec: the query operation — read the catalog
(normalizing absence) and run the query engine over it. -/
def queryActionModel (st : BackendState) (boxName vq pq : String) : Option Catalog :=
  queryCatalog (readNormalized st boxName) vq pq

/-! ## The delete operation (spec section 4.4) -/

/-- The artifact paths of every entry of a catalog (used for the file
deletions of a delete operation, one path per matched provider). -/
def catalogEntryPaths (boxName : String) (cat : Catalog) : List String :=
  cat.versions.flatMap (fun v => v.providers.map (fun p => boxFilePath boxName v.version p.name))

/-- Modelled from the spec: the version-by-version removal loop of
`DeleteBoxes` of the missing `pkg/caryatid` manager — inside every version
that satisfies the version query, remove the providers whose name matches
the pattern; a version left with no providers is removed entirely, in
place, preserving the order of the remaining entries. -/
def deleteVersions (vq : String) (ps : List RPiece) : List Version → Option (List Version)
  | [] => some []
  | v :: rest =>
    match versionSatisfies vq v.version, deleteVersions vq ps rest with
    | some matched, some tail =>
      if matched then
        let provs := v.providers.filter (fun p => !searchFrom ps p.name.data)
        if provs.isEmpty then some tail else some ({ v with providers := provs } :: tail)
      else some (v :: tail)
    | _, _ => none

/-- Modelled from the spec: `DeleteBoxes` of the missing `pkg/caryatid`
manager — read the catalog (normalizing absence), compute the matching set
via the query engine, delete the matching artifact files from the backend,
and write the reduced catalog back. -/
def deleteBoxesModel (st : BackendState) (boxName vq pq : String) : Option BackendState :=
  let cat := readNormalized st boxName
  (parseRegex pq.data).bind (fun ps =>
    (queryCatalog cat vq pq).bind (fun matched =>
      (deleteVersions vq ps cat.versions).map (fun remaining =>
        { catalogDoc := some { cat with versions := remaining },
          files := st.files.filter
            (fun f => !(catalogEntryPaths boxName matched).contains f) })))

/-! ## JSON wire form (spec section 6, `caryatid_test.go`)

The codec is modelled at the level of the JSON document tree; lexing the
concrete byte syntax is done by Go's `encoding/json` outside the repository.
Missing object fields decode to the Go zero value, a field of the wrong
shape is a decode error. -/

/-- A JSON document tree, restricted to the shapes the catalog wire form
uses. -/
inductive JsonVal
  | jstr (s : String)
  | jarr (xs : List JsonVal)
  | jobj (fields : List (String × JsonVal))

/-- First value bound to a key in a JSON object. -/
def jsonLookup (fields : List (String × JsonVal)) (key : String) : Option JsonVal :=
  (fields.find? (fun kv => kv.1 == key)).map (fun kv => kv.2)

/-- Decode a string-typed field: absent means the zero value `""`, a
non-string value is a decode error. -/
def decodeStringField (fields : List (String × JsonVal)) (key : String) : Option String :=
  match jsonLookup fields key with
  | none => some ""
  | some (.jstr s) => some s
  | some _ => none

/-- Modelled from the spec: the JSON encoding of a Provider of the missing
`pkg/caryatid` package, with the `checksum_type` snake_case field name shown
by `caryatid_test.go`. -/
def encodeProvider (p : Provider) : JsonVal :=
  .jobj [("name", .jstr p.name), ("url", .jstr p.url),
         ("checksum_type", .jstr p.checksumType), ("checksum", .jstr p.checksum)]

/-- Modelled from the spec: the JSON encoding of a Version. -/
def encodeVersion (v : Version) : JsonVal :=
  .jobj [("version", .jstr v.version), ("providers", .jarr (v.providers.map encodeProvider))]

/-- Modelled from the spec: the JSON encoding of a Catalog. -/
def encodeCatalog (c : Catalog) : JsonVal :=
  .jobj [("name", .jstr c.name), ("description", .jstr c.description),
         ("versions", .jarr (c.versions.map encodeVersion))]

/-- Modelled from the spec: decoding a Provider from its JSON wire form. -/
def decodeProvider : JsonVal → Option Provider
  | .jobj fields =>
    (decodeStringField fields "name").bind (fun n =>
      (decodeStringField fields "url").bind (fun u =>
        (decodeStringField fields "checksum_type").bind (fun ct =>
          (decodeStringField fields "checksum").map (fun cs => ⟨n, u, ct, cs⟩))))
  | _ => none

/-- Decode a list-typed field: absent means the zero value (an empty list),
a non-array value is a decode error. -/
def decodeArrayField (fields : List (String × JsonVal)) (key : String) : Option (List JsonVal) :=
  match jsonLookup fields key with
  | none => some []
  | some (.jarr xs) => some xs
  | some _ => none

/-- Decode every element of a JSON array, failing when any element fails. -/
def decodeAll {α : Type} (f : JsonVal → Option α) : List JsonVal → Option (List α)
  | [] => some []
  | x :: xs => (f x).bind (fun a => (decodeAll f xs).map (fun as => a :: as))

/-- Modelled from the spec: decoding a Version from its JSON wire form. -/
def decodeVersion : JsonVal → Option Version
  | .jobj fields =>
    (decodeStringField fields "version").bind (fun vs =>
      (decodeArrayField fields "providers").bind (fun xs =>
        (decodeAll decodeProvider xs).map (fun provs => ⟨vs, provs⟩)))
  | _ => none

/-- Modelled from the spec: decoding a Catalog from its JSON wire form;
the document `\x7b\x7d` is the empty object `jobj []`. -/
def decodeCatalog : JsonVal → Option Catalog
  | .jobj fields =>
    (decodeStringField fields "name").bind (fun n =>
      (decodeStringField fields "description").bind (fun d =>
        (decodeArrayField fields "versions").bind (fun xs =>
          (decodeAll decodeVersion xs).map (fun vs => ⟨n, d, vs⟩))))
  | _ => none

/-! ## CLI catalog-location handling (`src/cmd/caryatid/caryatid.go`) -/

/-- Is the character in `[a-zA-Z0-9]`? -/
def isAlnumChar (c : Char) : Bool :=
  ('a' ≤ c && c ≤ 'z') || ('A' ≤ c && c ≤ 'Z') || ('0' ≤ c && c ≤ '9')

/-- `testValidUri` from `src/cmd/caryatid/caryatid.go`: whether the string
matches the regular expression `^[a-zA-Z0-9]+://` — one or more alphanumeric
characters followed by `://`, anchored at the start. -/
def testValidUri (s : String) : Bool :=
  let cs := s.data
  !(cs.takeWhile isAlnumChar).isEmpty &&
    beginsWith [':', '/', '/'] (cs.dropWhile isAlnumChar)

/-- The semantics of the regular expression `^[a-zA-Z0-9]+://`: the string
decomposes as a nonempty alphanumeric run, then `://`, then anything. -/
def SchemePrefixed (s : String) : Prop :=
  ∃ run rest, s.data = run ++ [':', '/', '/'] ++ rest ∧ run ≠ [] ∧ ∀ c ∈ run, isAlnumChar c

/-- `convertLocalPathToUri` from `src/cmd/caryatid/caryatid.go`, with
`filepath.Abs` abstracted as a function argument: `file://` followed by the
absolute path. -/
def convertLocalPathToUri (abspath : String → String) (path : String) : String :=
  "file://" ++ abspath path

/-- The catalog-URI selection of `getManager` in
`src/cmd/caryatid/caryatid.go`: a string accepted by `testValidUri` is used
verbatim, anything else is converted as a local path. -/
def getManagerUri (abspath : String → String) (catalogRootUri : String) : String :=
  if testValidUri catalogRootUri then catalogRootUri
  else convertLocalPathToUri abspath catalogRootUri

/-! ## Concrete scenario fixtures (from `TestQueryAction` and
`TestDeleteAction` in the repository's integration tests) -/

/-- Fold a list of versions through `managerAddBox` for one provider, as the
integration tests do. -/
def addAll (st : BackendState) (path name desc pname ctype csum : String)
    (vs : List String) : BackendState :=
  vs.foldl (fun s v => managerAddBox s path name desc v pname ctype csum) st

/-- A backend with no catalog document and no files. -/
def emptyState : BackendState := ⟨none, []⟩

/-- The provider entry the scenario adds produce for a given provider name
and version. -/
def scenarioProvider (pname vstr : String) : Provider :=
  ⟨pname, "/testbox/testbox_" ++ vstr ++ "_" ++ pname ++ ".box", "dtype", "0xB00B1E5"⟩

/-- The query-scenario catalog state: versions
`{0.3.5, 0.3.5-BETA, 1.0.0, 1.0.0-PRE, 1.4.5, 1.2.3, 1.2.4}` added for
provider `StrongSapling`, then `{0.3.4, 0.3.5-BETA, 1.0.1, 2.0.0, 2.10.0,
2.11.1, 1.2.3}` for provider `FeebleFungus`. -/
def queryScenarioState : BackendState :=
  addAll
    (addAll emptyState "in1.box" "testbox" "testbox desc" "StrongSapling" "dtype" "0xB00B1E5"
      ["0.3.5", "0.3.5-BETA", "1.0.0", "1.0.0-PRE", "1.4.5", "1.2.3", "1.2.4"])
    "in2.box" "testbox" "testbox desc" "FeebleFungus" "dtype" "0xB00B1E5"
    ["0.3.4", "0.3.5-BETA", "1.0.1", "2.0.0", "2.10.0", "2.11.1", "1.2.3"]

/-- The delete-scenario catalog state: versions `{0.3.5, 0.3.5-BETA, 1.0.0}`
added for provider `StrongSapling`, then `{0.3.4, 0.3.5-BETA, 1.0.1}` for
provider `FeebleFungus`. -/
def deleteScenarioState : BackendState :=
  addAll
    (addAll emptyState "in1.box" "testbox" "testbox desc" "StrongSapling" "dtype" "0xB00B1E5"
      ["0.3.5", "0.3.5-BETA", "1.0.0"])
    "in2.box" "testbox" "testbox desc" "FeebleFungus" "dtype" "0xB00B1E5"
    ["0.3.4", "0.3.5-BETA", "1.0.1"]

/-- The backend state left by the delete-scenario delete operation. -/
def deleteScenarioFinal : BackendState :=
  ⟨some ⟨"testbox", "testbox desc",
    [⟨"1.0.0", [scenarioProvider "StrongSapling" "1.0.0"]⟩,
     ⟨"1.0.1", [scenarioProvider "FeebleFungus" "1.0.1"]⟩]⟩,
   [boxFilePath "testbox" "1.0.0" "StrongSapling",
    boxFilePath "testbox" "1.0.1" "FeebleFungus"]⟩

/-- A one-version catalog used to witness the order-preservation theorem. -/
def sampleCatalog : Catalog := ⟨"b", "d", [⟨"1.0.0", [⟨"p", "u", "t", "c"⟩]⟩]⟩

/-! ## Helper lemmas -/

theorem coreCompare_self (l : List Nat) : coreCompare l l = .eq := by
  induction l with
  | nil => rfl
  | cons a as ih => simp [coreCompare, natCompare, ih]

theorem find?_addProviderEntry (p : Provider) (ps : List Provider) :
    (addProviderEntry p ps).find? (fun q => q.name == p.name) = some p := by
  induction ps with
  | nil => simp [addProviderEntry]
  | cons q rest ih =>
    by_cases h : q.name = p.name
    · simp [addProviderEntry, h]
    · simp [addProviderEntry, h, List.find?_cons, ih]

theorem lookupEntry_catalogAddEntry (cat : Catalog) (vstr : String) (p : Provider) :
    lookupEntry (catalogAddEntry cat vstr p) vstr p.name = some p := by
  show (((addVersionEntry vstr p cat.versions).find? (fun v => v.version == vstr)).bind
    (fun v => v.providers.find? (fun q => q.name == p.name))) = some p
  induction cat.versions with
  | nil => simp [addVersionEntry, find?_addProviderEntry]
  | cons v rest ih =>
    by_cases h : v.version = vstr
    · simp [addVersionEntry, h, find?_addProviderEntry]
    · simp only [addVersionEntry, if_neg h, List.find?_cons]
      have hv : (v.version == vstr) = false := by simp [h]
      rw [hv]
      exact ih

/-! ## Claim theorems -/

/-- C1: for every add operation, the catalog document is written to the
backend before the artifact file is copied (the write is the first backend
mutation issued, the copy the second); when the file copy fails after the
successful catalog write, the operation returns without rollback or crash:
the written catalog contains the new Provider entry under the artifact's
version while the backend file set is unchanged. -/
theorem claim_c1_add_write_before_copy (st : BackendState) (art : BoxArtifact) :
    (addActionModel st art true).trace =
      [.writeCatalogOp (addedCatalog st art),
       .copyFileOp (boxFilePath art.name art.version art.provider)] ∧
    (addActionModel st art true).success = false ∧
    (addActionModel st art true).finalState.catalogDoc = some (addedCatalog st art) ∧
    lookupEntry (addedCatalog st art) art.version art.provider =
      some (artifactProvider art) ∧
    (addActionModel st art true).finalState.files = st.files := by
  refine ⟨rfl, rfl, rfl, ?_, rfl⟩
  have h := lookupEntry_catalogAddEntry
    (match st.catalogDoc with
     | some c => c
     | none => ⟨art.name, art.description, []⟩)
    art.version (artifactProvider art)
  exact h

/-- C2: on the two-provider query-scenario catalog, querying with version
query `<1` and provider query `.*rongSap.*` returns exactly the versions
`0.3.5` and `0.3.5-BETA`, each containing only the `StrongSapling`
provider. -/
theorem claim_c2_query_scenario :
    queryActionModel queryScenarioState "testbox" "<1" ".*rongSap.*" =
      some ⟨"testbox", "testbox desc",
        [⟨"0.3.5", [scenarioProvider "StrongSapling" "0.3.5"]⟩,
         ⟨"0.3.5-BETA", [scenarioProvider "StrongSapling" "0.3.5-BETA"]⟩]⟩ := by
  decide

/-- C3: on the two-provider delete-scenario catalog, deleting with version
query `<1` and empty provider query removes every version below 1.0.0 for
every provider, leaving exactly `1.0.0` (StrongSapling only) and `1.0.1`
(FeebleFungus only); the artifact files of every removed entry are gone from
the backend while the files of the retained entries remain. -/
theorem claim_c3_delete_scenario :
    deleteBoxesModel deleteScenarioState "testbox" "<1" "" = some deleteScenarioFinal ∧
    boxFilePath "testbox" "0.3.5" "StrongSapling" ∉ deleteScenarioFinal.files ∧
    boxFilePath "testbox" "0.3.5-BETA" "StrongSapling" ∉ deleteScenarioFinal.files ∧
    boxFilePath "testbox" "0.3.5-BETA" "FeebleFungus" ∉ deleteScenarioFinal.files ∧
    boxFilePath "testbox" "0.3.4" "FeebleFungus" ∉ deleteScenarioFinal.files ∧
    boxFilePath "testbox" "1.0.0" "StrongSapling" ∈ deleteScenarioFinal.files ∧
    boxFilePath "testbox" "1.0.1" "FeebleFungus" ∈ deleteScenarioFinal.files := by
  decide

/-- C4: the version ordering places every version carrying a pre-release
suffix strictly before the same numeric core without a suffix; numeric
cores compare component-wise as numbers (a strictly smaller core decides
the comparison regardless of suffixes); in particular
`1.0.0-PRE < 1.0.0 < 1.2.3 < 1.2.4`, `0.3.5-BETA < 0.3.5` and
`1.2.0 < 1.10.0`. -/
theorem claim_c4_version_ordering :
    (∀ (core : List Nat) (suf : String),
      semVerCompare ⟨core, some suf⟩ ⟨core, none⟩ = .lt) ∧
    (∀ (c1 c2 : List Nat) (s1 s2 : Option String),
      coreCompare c1 c2 = .lt → semVerCompare ⟨c1, s1⟩ ⟨c2, s2⟩ = .lt) ∧
    versionLt "1.0.0-PRE" "1.0.0" = some true ∧
    versionLt "1.0.0" "1.2.3" = some true ∧
    versionLt "1.2.3" "1.2.4" = some true ∧
    versionLt "0.3.5-BETA" "0.3.5" = some true ∧
    versionLt "1.2.0" "1.10.0" = some true := by
  refine ⟨?_, ?_, by decide, by decide, by decide, by decide, by decide⟩
  · intro core suf
    simp [semVerCompare, coreCompare_self, suffixCompare]
  · intro c1 c2 s1 s2 h
    simp [semVerCompare, h]

/-- C4 witness: the general conjuncts applied at a concrete core and at a
concrete strictly-smaller core. -/
theorem claim_c4_version_ordering_witness :
    semVerCompare ⟨[1, 0, 0], some "PRE"⟩ ⟨[1, 0, 0], none⟩ = .lt ∧
    semVerCompare ⟨[1, 2], some "A"⟩ ⟨[2], none⟩ = .lt :=
  ⟨claim_c4_version_ordering.1 [1, 0, 0] "PRE",
   claim_c4_version_ordering.2.1 [1, 2] [2] (some "A") none (by decide)⟩

/-- C6: at a URI with no catalog document, `GetCatalog` — and the read step
of the add, query and delete operations — yields an empty catalog with the
configured box name, empty description and no versions, instead of an
error. -/
theorem claim_c6_absent_catalog_normalized (files : List String) (boxName : String)
    (art : BoxArtifact) :
    managerGetCatalog ⟨none, files⟩ boxName = .ok ⟨boxName, "", []⟩ ∧
    readNormalized ⟨none, files⟩ boxName = ⟨boxName, "", []⟩ ∧
    queryActionModel ⟨none, files⟩ boxName "" "" = some ⟨boxName, "", []⟩ ∧
    deleteBoxesModel ⟨none, files⟩ boxName "" "" = some ⟨some ⟨boxName, "", []⟩, files⟩ ∧
    (addActionModel ⟨none, files⟩ art false).success = true := by
  refine ⟨rfl, rfl, rfl, ?_, rfl⟩
  simp [deleteBoxesModel, readNormalized, backendReadCatalog, queryCatalog, queryVersions,
    deleteVersions, parseRegex, catalogEntryPaths, List.filter_true]

theorem names_addProviderEntry_of_mem (p : Provider) (ps : List Provider)
    (h : p.name ∈ ps.map Provider.name) :
    (addProviderEntry p ps).map Provider.name = ps.map Provider.name := by
  induction ps with
  | nil => simp at h
  | cons q rest ih =>
    by_cases hq : q.name = p.name
    · simp [addProviderEntry, hq]
    · have h2 : p.name = q.name ∨ p.name ∈ rest.map Provider.name := by
        rw [List.map_cons] at h
        exact List.mem_cons.mp h
      have hr : p.name ∈ rest.map Provider.name := by
        rcases h2 with h1 | h1
        · exact absurd h1.symm hq
        · exact h1
      simp [addProviderEntry, hq, ih hr]

theorem names_addProviderEntry_of_not_mem (p : Provider) (ps : List Provider)
    (h : p.name ∉ ps.map Provider.name) :
    (addProviderEntry p ps).map Provider.name = ps.map Provider.name ++ [p.name] := by
  induction ps with
  | nil => simp [addProviderEntry]
  | cons q rest ih =>
    have hq : q.name ≠ p.name := by
      intro he
      exact h (by simp [he])
    have hr : p.name ∉ rest.map Provider.name := by
      intro hm
      exact h (by simp [hm])
    simp [addProviderEntry, hq, ih hr]

theorem nodup_names_addProviderEntry (p : Provider) (ps : List Provider)
    (h : (ps.map Provider.name).Nodup) :
    ((addProviderEntry p ps).map Provider.name).Nodup := by
  by_cases hm : p.name ∈ ps.map Provider.name
  · rw [names_addProviderEntry_of_mem p ps hm]
    exact h
  · rw [names_addProviderEntry_of_not_mem p ps hm]
    simp [List.nodup_append, h, hm]

theorem filter_addProviderEntry_twice (p1 p2 : Provider) (hname : p1.name = p2.name)
    (ps : List Provider) (hnd : (ps.map Provider.name).Nodup) :
    (addProviderEntry p2 (addProviderEntry p1 ps)).filter (fun q => q.name == p2.name)
      = [p2] := by
  induction ps with
  | nil => simp [addProviderEntry, hname]
  | cons q rest ih =>
    have hnd2 : q.name ∉ rest.map Provider.name ∧ (rest.map Provider.name).Nodup := by
      rw [List.map_cons, List.nodup_cons] at hnd
      exact hnd
    have hqmem : q.name ∉ rest.map Provider.name := hnd2.1
    have hnd' : (rest.map Provider.name).Nodup := hnd2.2
    by_cases hq : q.name = p1.name
    · have e1 : addProviderEntry p1 (q :: rest) = p1 :: rest := by
        simp [addProviderEntry, hq]
      have e2 : addProviderEntry p2 (p1 :: rest) = p2 :: rest := by
        simp [addProviderEntry, hname]
      rw [e1, e2]
      have hrest : List.filter (fun q2 => q2.name == p2.name) rest = [] := by
        rw [List.filter_eq_nil_iff]
        intro a ha
        have hmem : a.name ∈ rest.map Provider.name := List.mem_map_of_mem _ ha
        have hne : a.name ≠ p2.name := by
          intro he
          rw [he, ← hname, ← hq] at hmem
          exact hqmem hmem
        simp [hne]
      simp [List.filter_cons, hrest]
    · have hq2 : q.name ≠ p2.name := by
        rw [← hname]
        exact hq
      have e1 : addProviderEntry p1 (q :: rest) = q :: addProviderEntry p1 rest := by
        simp [addProviderEntry, hq]
      have e2 : addProviderEntry p2 (q :: addProviderEntry p1 rest)
          = q :: addProviderEntry p2 (addProviderEntry p1 rest) := by
        simp [addProviderEntry, hq2]
      rw [e1, e2]
      simp [List.filter_cons, hq2, ih hnd']

theorem addVersionEntry_twice_spec (vstr : String) (p1 p2 : Provider)
    (hname : p1.name = p2.name) (vs : List Version)
    (hvers : (vs.map Version.version).Nodup)
    (hprov : ∀ v ∈ vs, (v.providers.map Provider.name).Nodup) :
    (∃ v ∈ addVersionEntry vstr p2 (addVersionEntry vstr p1 vs), v.version = vstr) ∧
    (∀ v ∈ addVersionEntry vstr p2 (addVersionEntry vstr p1 vs), v.version = vstr →
       v.providers.filter (fun q => q.name == p2.name) = [p2]) ∧
    (∀ v ∈ addVersionEntry vstr p2 (addVersionEntry vstr p1 vs),
       (v.providers.map Provider.name).Nodup) := by
  induction vs with
  | nil =>
    have e : addVersionEntry vstr p2 (addVersionEntry vstr p1 [])
        = [⟨vstr, [p2]⟩] := by
      simp [addVersionEntry, addProviderEntry, hname]
    rw [e]
    refine ⟨⟨⟨vstr, [p2]⟩, by simp, rfl⟩, ?_, ?_⟩
    · intro v hv _
      rcases List.mem_singleton.mp hv with rfl
      simp
    · intro v hv
      rcases List.mem_singleton.mp hv with rfl
      simp
  | cons v vs ih =>
    have hvnd : v.version ∉ vs.map Version.version ∧ (vs.map Version.version).Nodup := by
      rw [List.map_cons, List.nodup_cons] at hvers
      exact hvers
    have hvmem : v.version ∉ vs.map Version.version := hvnd.1
    have hvers' : (vs.map Version.version).Nodup := hvnd.2
    have hprovv : (v.providers.map Provider.name).Nodup := hprov v (by simp)
    have hprov' : ∀ w ∈ vs, (w.providers.map Provider.name).Nodup :=
      fun w hw => hprov w (by simp [hw])
    by_cases h : v.version = vstr
    · have e1 : addVersionEntry vstr p1 (v :: vs)
          = { v with providers := addProviderEntry p1 v.providers } :: vs := by
        simp [addVersionEntry, h]
      have e2 : addVersionEntry vstr p2
            ({ v with providers := addProviderEntry p1 v.providers } :: vs)
          = { v with providers := addProviderEntry p2 (addProviderEntry p1 v.providers) }
              :: vs := by
        simp [addVersionEntry, h]
      rw [e1, e2]
      refine ⟨⟨{ v with providers := addProviderEntry p2 (addProviderEntry p1 v.providers) },
        List.mem_cons_self _ _, h⟩, ?_, ?_⟩
      · intro w hw hwv
        rcases List.mem_cons.mp hw with rfl | hw2
        · exact filter_addProviderEntry_twice p1 p2 hname v.providers hprovv
        · exact absurd (hwv ▸ List.mem_map_of_mem Version.version hw2) (h ▸ hvmem)
      · intro w hw
        rcases List.mem_cons.mp hw with rfl | hw2
        · exact nodup_names_addProviderEntry p2 _
            (nodup_names_addProviderEntry p1 _ hprovv)
        · exact hprov' w hw2
    · have e1 : addVersionEntry vstr p1 (v :: vs)
          = v :: addVersionEntry vstr p1 vs := by
        simp [addVersionEntry, h]
      have e2 : addVersionEntry vstr p2 (v :: addVersionEntry vstr p1 vs)
          = v :: addVersionEntry vstr p2 (addVersionEntry vstr p1 vs) := by
        simp [addVersionEntry, h]
      rw [e1, e2]
      obtain ⟨⟨w0, hw0, hw0v⟩, hfil, hnd⟩ := ih hvers' hprov'
      refine ⟨⟨w0, by simp [hw0], hw0v⟩, ?_, ?_⟩
      · intro w hw hwv
        rcases List.mem_cons.mp hw with rfl | hw2
        · exact absurd hwv h
        · exact hfil w hw2 hwv
      · intro w hw
        rcases List.mem_cons.mp hw with rfl | hw2
        · exact hprovv
        · exact hnd w hw2

/-- C5: for every catalog satisfying the catalog invariants (unique version
strings, unique provider names inside each version), registering the same
version twice with providers of the same name leaves exactly one provider
entry of that name under that version — the second one, carrying the second
checksum; provider names stay unique within every version; and
re-registering an existing provider name keeps the provider-name sequence
unchanged (replacement in place, not an appended duplicate). -/
theorem claim_c5_idempotent_readd (cat : Catalog) (vstr : String) (p1 p2 : Provider)
    (hname : p1.name = p2.name)
    (hvers : (cat.versions.map Version.version).Nodup)
    (hprov : ∀ v ∈ cat.versions, (v.providers.map Provider.name).Nodup) :
    (∃ v ∈ (catalogAddEntry (catalogAddEntry cat vstr p1) vstr p2).versions,
       v.version = vstr) ∧
    (∀ v ∈ (catalogAddEntry (catalogAddEntry cat vstr p1) vstr p2).versions,
       v.version = vstr →
       v.providers.filter (fun q => q.name == p2.name) = [p2]) ∧
    (∀ v ∈ (catalogAddEntry (catalogAddEntry cat vstr p1) vstr p2).versions,
       (v.providers.map Provider.name).Nodup) ∧
    (∀ ps : List Provider, p2.name ∈ ps.map Provider.name →
       (addProviderEntry p2 ps).map Provider.name = ps.map Provider.name) := by
  obtain ⟨h1, h2, h3⟩ := addVersionEntry_twice_spec vstr p1 p2 hname cat.versions hvers hprov
  exact ⟨h1, h2, h3, fun ps hm => names_addProviderEntry_of_mem p2 ps hm⟩

/-- C5 witness: the theorem applied to a concrete one-version catalog and
two providers sharing a name but differing in checksum. -/
theorem claim_c5_idempotent_readd_witness :
    (∃ v ∈ (catalogAddEntry
        (catalogAddEntry ⟨"b", "d", [⟨"1.0.0", [⟨"vbox", "u0", "t", "c0"⟩]⟩]⟩
          "1.0.0" ⟨"vmw", "u1", "t", "c1"⟩)
        "1.0.0" ⟨"vmw", "u2", "t", "c2"⟩).versions, v.version = "1.0.0") ∧
    (∀ v ∈ (catalogAddEntry
        (catalogAddEntry ⟨"b", "d", [⟨"1.0.0", [⟨"vbox", "u0", "t", "c0"⟩]⟩]⟩
          "1.0.0" ⟨"vmw", "u1", "t", "c1"⟩)
        "1.0.0" ⟨"vmw", "u2", "t", "c2"⟩).versions, v.version = "1.0.0" →
       v.providers.filter (fun q => q.name == "vmw") = [⟨"vmw", "u2", "t", "c2"⟩]) := by
  have h := claim_c5_idempotent_readd
    ⟨"b", "d", [⟨"1.0.0", [⟨"vbox", "u0", "t", "c0"⟩]⟩]⟩ "1.0.0"
    ⟨"vmw", "u1", "t", "c1"⟩ ⟨"vmw", "u2", "t", "c2"⟩ rfl (by decide) (by decide)
  exact ⟨h.1, h.2.1⟩

theorem queryVersions_spec (vq : String) (ps : List RPiece) :
    ∀ (vs out : List Version), queryVersions vq ps vs = some out →
      List.Sublist (out.map Version.version) (vs.map Version.version) ∧
      ∀ v ∈ out, ∃ w ∈ vs, w.version = v.version ∧ List.Sublist v.providers w.providers := by
  intro vs
  induction vs with
  | nil =>
    intro out h
    rw [queryVersions] at h
    injection h with h
    subst h
    exact ⟨List.nil_sublist _, by simp⟩
  | cons v rest ih =>
    intro out h
    rw [queryVersions] at h
    cases hsat : versionSatisfies vq v.version with
    | none =>
      rw [hsat] at h
      cases htail : queryVersions vq ps rest with
      | none => rw [htail] at h; simp at h
      | some tail => rw [htail] at h; simp at h
    | some keep =>
      rw [hsat] at h
      cases htail : queryVersions vq ps rest with
      | none => rw [htail] at h; simp at h
      | some tail =>
        rw [htail] at h
        obtain ⟨hsub, hmem⟩ := ih tail htail
        cases keep with
        | false =>
          simp only [Bool.false_eq_true, if_false] at h
          injection h with h
          subst h
          refine ⟨hsub.cons _, ?_⟩
          intro w hw
          obtain ⟨w2, hw2, hv, hp⟩ := hmem w hw
          exact ⟨w2, List.mem_cons_of_mem _ hw2, hv, hp⟩
        | true =>
          simp only [if_true] at h
          cases hemp : (filterProviders ps v.providers).isEmpty with
          | true =>
            rw [hemp] at h
            simp only [if_true] at h
            injection h with h
            subst h
            refine ⟨hsub.cons _, ?_⟩
            intro w hw
            obtain ⟨w2, hw2, hv, hp⟩ := hmem w hw
            exact ⟨w2, List.mem_cons_of_mem _ hw2, hv, hp⟩
          | false =>
            rw [hemp] at h
            simp only [Bool.false_eq_true, if_false] at h
            injection h with h
            subst h
            constructor
            · exact hsub.cons₂ _
            · intro w hw
              rcases List.mem_cons.mp hw with rfl | hw2
              · exact ⟨v, List.mem_cons_self _ _, rfl, List.filter_sublist _⟩
              · obtain ⟨w2, hw2b, hv, hp⟩ := hmem w hw2
                exact ⟨w2, List.mem_cons_of_mem _ hw2b, hv, hp⟩

/-- C7: for every catalog and query pair on which the query engine succeeds,
the result keeps the catalog's name and description, its version sequence is
a subsequence of the input's (same relative order, no re-sorting, no
duplication), and every surviving version's provider sequence is a
subsequence of that version's input providers. -/
theorem claim_c7_query_preserves_order (cat : Catalog) (vq pq : String) (out : Catalog)
    (h : queryCatalog cat vq pq = some out) :
    out.name = cat.name ∧ out.description = cat.description ∧
    List.Sublist (out.versions.map Version.version) (cat.versions.map Version.version) ∧
    ∀ v ∈ out.versions, ∃ w ∈ cat.versions, w.version = v.version ∧
      List.Sublist v.providers w.providers := by
  rw [queryCatalog] at h
  cases hpp : parseRegex pq.data with
  | none => rw [hpp] at h; simp at h
  | some ps =>
    rw [hpp] at h
    simp only [Option.some_bind] at h
    cases hqv : queryVersions vq ps cat.versions with
    | none => rw [hqv] at h; simp at h
    | some vs =>
      rw [hqv] at h
      simp only [Option.map_some'] at h
      injection h with h
      subst h
      obtain ⟨hsub, hmem⟩ := queryVersions_spec vq ps cat.versions vs hqv
      exact ⟨rfl, rfl, hsub, hmem⟩

/-- C7 witness: the theorem applied to a concrete catalog and the
match-everything query, on which the engine returns the catalog itself. -/
theorem claim_c7_query_preserves_order_witness :
    sampleCatalog.name = sampleCatalog.name ∧
    sampleCatalog.description = sampleCatalog.description ∧
    List.Sublist (sampleCatalog.versions.map Version.version)
      (sampleCatalog.versions.map Version.version) ∧
    ∀ v ∈ sampleCatalog.versions, ∃ w ∈ sampleCatalog.versions,
      w.version = v.version ∧ List.Sublist v.providers w.providers :=
  claim_c7_query_preserves_order sampleCatalog "" "" sampleCatalog (by decide)

theorem parseRegex_literal (P : List Char) (h : ∀ c ∈ P, c ≠ '.' ∧ c ≠ '*') :
    parseRegex P = some (P.map fun c => RPiece.once (RAtom.ch c)) := by
  induction P with
  | nil => rfl
  | cons c rest ih =>
    have hc := h c (by simp)
    cases rest with
    | nil => simp [parseRegex, hc.1, hc.2]
    | cons c2 rest2 =>
      have hc2 := h c2 (by simp)
      have hr := ih (fun a ha => h a (List.mem_cons_of_mem _ ha))
      simp [parseRegex, hc.1, hc.2, hc2.2, hr]

theorem matchHere_literal (P : List Char) :
    ∀ cs : List Char,
      matchHere (P.map fun c => RPiece.once (RAtom.ch c)) cs = beginsWith P cs := by
  induction P with
  | nil => intro cs; rfl
  | cons c rest ih =>
    intro cs
    cases cs with
    | nil => rfl
    | cons h hs => simp [matchHere, beginsWith, atomMatch, ih]

theorem searchFrom_literal (P : List Char) :
    ∀ cs : List Char,
      searchFrom (P.map fun c => RPiece.once (RAtom.ch c)) cs = containsSub P cs := by
  intro cs
  induction cs with
  | nil =>
    show matchHere (P.map fun c => RPiece.once (RAtom.ch c)) [] = P.isEmpty
    rw [matchHere_literal]
    cases P <;> rfl
  | cons c cs ih =>
    show (matchHere (P.map fun c => RPiece.once (RAtom.ch c)) (c :: cs) || _) = _
    rw [matchHere_literal, ih]
    rfl

theorem searchFrom_nil (cs : List Char) : searchFrom [] cs = true := by
  cases cs <;> rfl

/-- C8 (amended): provider-pattern matching is an unanchored search — every
pattern free of the regex metacharacters `.` and `*` matches every provider
name containing it as a substring (anywhere, not only as the full string);
in particular `rongSap` matches `StrongSapling`; and the empty pattern
matches every provider name.  For arbitrary regular-expression patterns the
substring part of the claim fails, see the counterexample. -/
theorem claim_c8_unanchored_matching (pat name : String)
    (hlit : ∀ c ∈ pat.data, c ≠ '.' ∧ c ≠ '*')
    (hsub : containsSub pat.data name.data = true) :
    providerSearch pat name = some true ∧
    (∀ s : String, providerSearch "" s = some true) ∧
    providerSearch "rongSap" "StrongSapling" = some true := by
  refine ⟨?_, ?_, by decide⟩
  · rw [providerSearch, parseRegex_literal pat.data hlit]
    simp only [Option.map_some']
    rw [searchFrom_literal, hsub]
  · intro s
    show ((parseRegex "".data).map fun ps => searchFrom ps s.data) = some true
    show ((some []).map fun ps => searchFrom ps s.data) = some true
    simp only [Option.map_some']
    rw [searchFrom_nil]

/-- C8 counterexample: the pattern `ab*c` — a valid pattern of the modelled
dialect, matching `ac`, `abc`, `abbc`, … — occurs as a literal substring of
the provider name `ab*c`, yet the regular-expression search does not match
it, so "for every provider name containing the pattern as a substring the
provider matches" is false for patterns with metacharacters. -/
theorem claim_c8_counterexample :
    containsSub "ab*c".data "ab*c".data = true ∧
    providerSearch "ab*c" "ab*c" = some false := by decide

/-- C8 witness: the amended theorem applied to the literal pattern `rongSap`
and the provider name `StrongSapling`. -/
theorem claim_c8_unanchored_matching_witness :
    providerSearch "rongSap" "StrongSapling" = some true :=
  (claim_c8_unanchored_matching "rongSap" "StrongSapling" (by decide) (by decide)).1

theorem decodeProvider_encodeProvider (p : Provider) :
    decodeProvider (encodeProvider p) = some p := by
  cases p
  rfl

theorem decodeAll_encodeProvider (l : List Provider) :
    decodeAll decodeProvider (l.map encodeProvider) = some l := by
  induction l with
  | nil => rfl
  | cons p rest ih => simp [decodeAll, decodeProvider_encodeProvider, ih]

theorem decodeVersion_encodeVersion (v : Version) :
    decodeVersion (encodeVersion v) = some v := by
  cases v with
  | mk vs provs =>
    simp [encodeVersion, decodeVersion, decodeStringField, decodeArrayField, jsonLookup,
      decodeAll_encodeProvider]

theorem decodeAll_encodeVersion (l : List Version) :
    decodeAll decodeVersion (l.map encodeVersion) = some l := by
  induction l with
  | nil => rfl
  | cons v rest ih => simp [decodeAll, decodeVersion_encodeVersion, ih]

/-- C9: serializing any Catalog to its JSON wire form (with the
checksum-type field spelled `checksum_type`) and parsing it back yields a
structurally equal Catalog, and parsing the empty JSON object yields an
empty Catalog with zero versions. -/
theorem claim_c9_json_roundtrip (c : Catalog) :
    decodeCatalog (encodeCatalog c) = some c ∧
    decodeCatalog (.jobj []) = some ⟨"", "", []⟩ := by
  constructor
  · cases c with
    | mk n d vs =>
      simp [encodeCatalog, decodeCatalog, decodeStringField, decodeArrayField, jsonLookup,
        decodeAll_encodeVersion]
  · rfl

theorem beginsWith_iff (needle : List Char) :
    ∀ hay, beginsWith needle hay = true ↔ ∃ t, hay = needle ++ t := by
  induction needle with
  | nil =>
    intro hay
    simp [beginsWith]
  | cons n ns ih =>
    intro hay
    cases hay with
    | nil =>
      constructor
      · intro h
        exact absurd h (by simp [beginsWith])
      · rintro ⟨t, ht⟩
        exact absurd ht (by simp)
    | cons h hs =>
      constructor
      · intro hb
        have hb2 : (n == h && beginsWith ns hs) = true := hb
        obtain ⟨hnh, hrest⟩ := Bool.and_eq_true_iff.mp hb2
        obtain ⟨t, ht⟩ := (ih hs).mp hrest
        refine ⟨t, ?_⟩
        rw [ht, eq_of_beq hnh]
        rfl
      · rintro ⟨t, ht⟩
        injection ht with h1 h2
        show (n == h && beginsWith ns hs) = true
        rw [Bool.and_eq_true]
        exact ⟨by simp [h1], (ih hs).mpr ⟨t, h2⟩⟩

theorem takeWhile_dropWhile_scheme (run rest : List Char)
    (hall : ∀ c ∈ run, isAlnumChar c = true) :
    (run ++ ':' :: rest).takeWhile isAlnumChar = run ∧
    (run ++ ':' :: rest).dropWhile isAlnumChar = ':' :: rest := by
  induction run with
  | nil => exact ⟨rfl, rfl⟩
  | cons c run ih =>
    have hc := hall c (by simp)
    have ih2 := ih (fun a ha => hall a (List.mem_cons_of_mem _ ha))
    constructor
    · simp [List.takeWhile_cons, hc, ih2.1]
    · simp [List.dropWhile_cons, hc, ih2.2]

theorem mem_takeWhile_alnum (l : List Char) :
    ∀ c ∈ l.takeWhile isAlnumChar, isAlnumChar c = true := by
  induction l with
  | nil => simp
  | cons a l ih =>
    cases ha : isAlnumChar a with
    | true =>
      simp only [List.takeWhile_cons, ha]
      intro c hc
      rcases List.mem_cons.mp hc with rfl | hc2
      · exact ha
      · exact ih c hc2
    | false =>
      simp [List.takeWhile_cons, ha]

theorem testValidUri_iff (s : String) : testValidUri s = true ↔ SchemePrefixed s := by
  constructor
  · intro h
    obtain ⟨h1, h2⟩ := Bool.and_eq_true_iff.mp h
    obtain ⟨t, ht⟩ := (beginsWith_iff _ _).mp h2
    refine ⟨s.data.takeWhile isAlnumChar, t, ?_, ?_, mem_takeWhile_alnum s.data⟩
    · conv_lhs => rw [← List.takeWhile_append_dropWhile (p := isAlnumChar) (l := s.data)]
      rw [ht]
      simp
    · intro he
      rw [he] at h1
      exact absurd h1 (by decide)
  · rintro ⟨run, rest, hdecomp, hne, hall⟩
    have hd := takeWhile_dropWhile_scheme run ('/' :: '/' :: rest) hall
    show (!(s.data.takeWhile isAlnumChar).isEmpty &&
      beginsWith [':', '/', '/'] (s.data.dropWhile isAlnumChar)) = true
    have hdata : s.data = run ++ ':' :: ('/' :: '/' :: rest) := by
      rw [hdecomp]
      simp
    rw [hdata, hd.1, hd.2, Bool.and_eq_true]
    constructor
    · cases run with
      | nil => exact absurd rfl hne
      | cons a l => rfl
    · exact (beginsWith_iff _ _).mpr ⟨rest, rfl⟩

/-- C10: a catalog-location string is used verbatim as the catalog URI
exactly when it matches `^[a-zA-Z0-9]+://` (a nonempty alphanumeric scheme
followed by `://`); every other string is treated as a local filesystem path
and converted to `file://` followed by its absolute path before the backend
is constructed. -/
theorem claim_c10_uri_scheme_detection (abspath : String → String) (s : String) :
    (testValidUri s = true ↔ SchemePrefixed s) ∧
    (SchemePrefixed s → getManagerUri abspath s = s) ∧
    (¬SchemePrefixed s → getManagerUri abspath s = "file://" ++ abspath s) := by
  refine ⟨testValidUri_iff s, ?_, ?_⟩
  · intro h
    rw [getManagerUri, if_pos ((testValidUri_iff s).mpr h)]
  · intro h
    have hf : testValidUri s = false := by
      cases hx : testValidUri s
      · rfl
      · exact absurd ((testValidUri_iff s).mp hx) h
    simp [getManagerUri, hf, convertLocalPathToUri]

/-- C10 witness: the theorem applied to a scheme-prefixed URI (used
verbatim) and to a plain local path (converted to a `file://` URI). -/
theorem claim_c10_uri_scheme_detection_witness :
    getManagerUri (fun p => p) "http://x" = "http://x" ∧
    getManagerUri (fun p => "/abs/" ++ p) "local/path" = "file:///abs/local/path" := by
  constructor
  · exact (claim_c10_uri_scheme_detection (fun p => p) "http://x").2.1
      ⟨['h', 't', 't', 'p'], ['x'], rfl, by decide, by decide⟩
  · exact (claim_c10_uri_scheme_detection (fun p => "/abs/" ++ p) "local/path").2.2
      (fun h => absurd
        ((claim_c10_uri_scheme_detection (fun p => "/abs/" ++ p) "local/path").1.mpr h)
        (by decide))

end Caryatid
